import Mathlib

/-!
Verification development for the `spade-docker` build-record subsystem
(`src/main.rs`).  Rust strings are modelled as Lean `String`s; where the
Rust code manipulates the underlying byte/char sequence (splitting,
trimming, prefix stripping) we work on the `List Char` representation via
`String.toList` / `String.mk`, which mirrors Rust's `str` operations at
the character level.
-/

namespace SpadeDocker

/-- Model of Rust `str::split("\n")` followed by `.map(str::to_string)`,
as used by `retrieve_logged_images` (src/main.rs:126): split the file
contents at every newline character.  Rust's `split` on a one-character
pattern coincides with `List.splitOn` on the character list. -/
def splitLines (contents : String) : List String :=
  (contents.toList.splitOn '\n').map (fun cs => String.mk cs)

/-- Model of Rust `new_log.join("\n")` (src/main.rs:135): interleave the
log entries with single newline characters. -/
def joinLines (new_log : List String) : String :=
  String.mk (List.intercalate ['\n'] (new_log.map String.toList))

/-- Model of `retrieve_logged_images` (src/main.rs:121-130).  The backing file is
modelled as `Option String`: `none` when `hashes.txt` does not exist (the
function returns the empty vector), `some contents` when it does (the
function splits the contents on `"\n"`). -/
def retrieve_logged_images (file : Option String) : List String :=
  match file with
  | some contents => splitLines contents
  | none => []

/-- The content that `try_update_log` (src/main.rs:132-137) writes: the
new log joined with newlines.  The file-system steps (write to the
temporary path, atomic rename over the canonical path) are modelled
separately by `try_update_log_fs`. -/
def try_update_log (new_log : List String) : String :=
  joinLines new_log

/-- The in-memory update performed by `log_image` (src/main.rs:113-119):
push the hash onto the log unless it is already contained in it.  This is
the `append_if_absent` operation of the record store. -/
def append_if_absent (logged_images : List String) (hash : String) : List String :=
  if logged_images.contains hash then logged_images else logged_images ++ [hash]

/-- Model of `log_image` (src/main.rs:113-119): load the log, append the hash if
absent, and produce the file content written back by `try_update_log`. -/
def log_image (file : Option String) (hash : String) : String :=
  try_update_log (append_if_absent (retrieve_logged_images file) hash)

/-- State of the two file-system paths used by `try_update_log`
(src/main.rs:132-137): the canonical `hashes.txt` and the temporary
`hashes.temp.txt`, each `none` when absent. -/
structure FsState where
  canonical : Option String
  temp : Option String
deriving DecidableEq

/-- How one execution of `try_update_log` (src/main.rs:132-137) ends:
both steps run; `fs::write` to the temporary path fails (early return via
`?`, possibly leaving partial temporary content); the process stops
between the write and the rename; or `fs::rename` itself fails. -/
inductive ReplaceOutcome where
  | completed
  | writeFailed (partialTemp : Option String)
  | stoppedBeforeRename
  | renameFailed
deriving DecidableEq

/-- File-system effect of `try_update_log` (src/main.rs:132-137) under
each outcome.  `fs::write` touches only the temporary path; `fs::rename`
atomically moves the temporary file over the canonical path, so only a
completed run changes the canonical file. -/
def try_update_log_fs (st : FsState) (new_log : List String) : ReplaceOutcome → FsState
  | .completed => { canonical := some (try_update_log new_log), temp := none }
  | .writeFailed partialTemp => { st with temp := partialTemp }
  | .stoppedBeforeRename => { st with temp := some (try_update_log new_log) }
  | .renameFailed => { st with temp := some (try_update_log new_log) }

/-- A subsequent `retrieve_logged_images` reads the canonical path. -/
def load_fs (st : FsState) : List String :=
  retrieve_logged_images st.canonical

/-- Model of `serde_json::Value`, the document type returned by parsing
the inspector's output (src/main.rs:206). -/
inductive Json where
  | null
  | bool (b : Bool)
  | num (n : Int)
  | str (s : String)
  | arr (elems : List Json)
  | obj (fields : List (String × Json))

/-- Model of `serde_json` index-by-integer (`value[0]`): the array element at that
position, or `Null` when the value is not an array or the index is out of
bounds; it never errors. -/
def Json.index : Json → Nat → Json
  | .arr elems, i => (elems.get? i).getD .null
  | _, _ => .null

/-- Model of `serde_json` index-by-key (`value["k"]`): the object's field of that
name, or `Null` when the value is not an object or the key is absent; it
never errors. -/
def Json.key : Json → String → Json
  | .obj fields, k => ((fields.find? (fun f => f.1 == k)).map (fun f => f.2)).getD .null
  | _, _ => .null

/-- Model of `serde_json::Value::as_str`: `Some` of the string when the value is a
string, otherwise `None`. -/
def Json.as_str : Json → Option String
  | .str s => some s
  | _ => none

/-- The ownership filter of the clean loop (src/main.rs:207-211):
`image_info[0]["Config"]["Labels"]["tool"].as_str().map(|v| v == "spade-docker").unwrap_or_default()`. -/
def is_owned (image_info : Json) : Bool :=
  (((((image_info.index 0).key "Config").key "Labels").key "tool").as_str.map
    (fun value => value == "spade-docker")).getD false

/-- Model of Rust `str::lines` (src/main.rs:186): split at `'\n'`, strip
one trailing `'\r'` from every line that was terminated by a `'\n'`, and
do not produce a final empty line for a trailing newline. -/
def rustLines (s : String) : List String :=
  let parts := s.toList.splitOn '\n'
  let body := parts.dropLast.map (fun cs => if cs.getLast? = some '\r' then cs.dropLast else cs)
  let tail := match parts.getLast? with
    | some [] => []
    | some cs => [cs]
    | none => []
  (body ++ tail).map (fun cs => String.mk cs)

/-- The marker substring searched for in the build tool's diagnostic
output (src/main.rs:187). -/
def marker : String := "writing image sha256:"

/-- Substring containment on character lists: some tail of `hay` starts
with `needle`. -/
def isInfixOfChars (needle hay : List Char) : Bool :=
  hay.tails.any (fun t => needle.isPrefixOf t)

/-- Model of `line.contains("writing image sha256:")` (src/main.rs:187). -/
def containsMarker (line : String) : Bool :=
  isInfixOfChars marker.toList line.toList

/-- Model of Rust `str::trim` (src/main.rs:191): drop whitespace from
both ends of the token. -/
def trimChars (cs : List Char) : List Char :=
  ((cs.dropWhile Char.isWhitespace).reverse.dropWhile Char.isWhitespace).reverse

/-- Model of Rust `str::strip_prefix` (src/main.rs:192): when `pre` is a
prefix of `cs`, the remainder after it, otherwise `none`. -/
def stripPrefixChars (pre cs : List Char) : Option (List Char) :=
  if pre.isPrefixOf cs then some (cs.drop pre.length) else none

/-- Token scan of one line (src/main.rs:189-192):
`line.split(' ').map(str::trim).find_map(|seg| seg.strip_prefix("sha256:"))`. -/
def extractHashFromLine (line : String) : Option String :=
  ((((line.toList.splitOn ' ').map trimChars).findSome?
    (fun segment => stripPrefixChars "sha256:".toList segment)).map (fun cs => String.mk cs))

/-- Result of the hash-extraction step of the build path: either the bare
hash, or a process abort.  The source discharges both `Option`s with
`.expect(..)` (src/main.rs:188,193), which panics — an unrecoverable
process abort carrying the given message, not a recoverable error
value. -/
inductive ExtractResult where
  | ok (hash : String)
  | panicked (msg : String)
deriving DecidableEq

/-- The extraction performed by the build path (src/main.rs:185-193):
`find` the first line containing the marker (despite the binding's name
`last_line`, `Iterator::find` yields the first match), then scan its
space-separated tokens for one with the `sha256:` prefix; each absent
result panics with the source's `.expect` message. -/
def extractImageHash (stderr_captured : String) : ExtractResult :=
  match (rustLines stderr_captured).find? containsMarker with
  | some last_line =>
    match extractHashFromLine last_line with
    | some hash => .ok hash
    | none => .panicked "no hash in `docker build` output"
  | none => .panicked "`docker build` did not write image"

/-- The clean loop (src/main.rs:196-221), parametrised by the two
external collaborators: `inspect` models one `docker image inspect`
invocation (`Except.error ()` for any aborting failure — spawn/read
error, non-UTF-8 output, or JSON parse error — and `Except.ok` the parsed
document), and `remove` models one `docker rmi -f` invocation
(`Except.error ()` for a spawn/wait failure, `Except.ok b` for exit
status with success flag `b`).  Any `Except.error` aborts the whole run
with no further store writes.  The result is the trace of
`try_update_log` calls, in order, each paired with the identifiers whose
removal has been confirmed up to and including that point (most recent
first).  The content persisted after the element at position `i` of the
loaded log is the remaining suffix `rest` of the loop's list, which is
exactly `logged_images[i+1..]` of src/main.rs:217; the file-system write
itself is modelled as succeeding. -/
def pruneAux (inspect : String → Except Unit Json) (remove : String → Except Unit Bool) :
    List String → List String → List (List String × List String)
  | [], _ => []
  | image_hash :: rest, removed =>
    match inspect image_hash with
    | .error _ => []
    | .ok image_info =>
      if is_owned image_info then
        match remove image_hash with
        | .error _ => []
        | .ok true => (rest, image_hash :: removed) :: pruneAux inspect remove rest (image_hash :: removed)
        | .ok false => pruneAux inspect remove rest removed
      else pruneAux inspect remove rest removed

/-- Inspection document of an image carrying the ownership label, as in
the spec's ownership-filter example. -/
def exOwned : Json :=
  .arr [.obj [("Config", .obj [("Labels", .obj [("tool", .str "spade-docker")])])]]

/-- Inspection document with an empty `Labels` object. -/
def exEmptyLabels : Json :=
  .arr [.obj [("Config", .obj [("Labels", .obj [])])]]

/-- Inspection document with no `Config` key at all. -/
def exNoConfig : Json :=
  .arr [.obj []]

/-- Test inspector for the spec's prune scenario: `"a"` is reported as
not owned, every other identifier as owned. -/
def inspectScenario : String → Except Unit Json :=
  fun h => .ok (if h == "a" then exNoConfig else exOwned)

/-- Test remover for the spec's prune scenario: removal succeeds exactly
for `"b"`. -/
def removeScenario : String → Except Unit Bool :=
  fun h => .ok (h == "b")

/-- Test inspector reporting every image as owned. -/
def inspectAllOwned : String → Except Unit Json :=
  fun _ => .ok exOwned

/-- Test inspector reporting every image as not owned. -/
def inspectNoneOwned : String → Except Unit Json :=
  fun _ => .ok exNoConfig

/-- Test remover for which every removal succeeds. -/
def removeAllOk : String → Except Unit Bool :=
  fun _ => .ok true

/-- C5: replace is crash-safe: under a failed temporary write, a stop
between write and rename, or a failed rename, the canonical store file is
untouched and a subsequent load returns the pre-replace content. -/
theorem replace_failure_leaves_canonical (st : FsState) (new_log : List String)
    (partialTemp : Option String) :
    (try_update_log_fs st new_log (.writeFailed partialTemp)).canonical = st.canonical ∧
    load_fs (try_update_log_fs st new_log (.writeFailed partialTemp)) = load_fs st ∧
    (try_update_log_fs st new_log .stoppedBeforeRename).canonical = st.canonical ∧
    load_fs (try_update_log_fs st new_log .stoppedBeforeRename) = load_fs st ∧
    (try_update_log_fs st new_log .renameFailed).canonical = st.canonical ∧
    load_fs (try_update_log_fs st new_log .renameFailed) = load_fs st :=
  ⟨rfl, rfl, rfl, rfl, rfl, rfl⟩

/-- C1: on an output with two marker lines carrying different hashes, the
extractor returns the hash of the first marker line, not the last one;
the second conjunct shows the last line alone would yield "bbb". -/
theorem extractor_uses_first_marker_line :
    extractImageHash "#5 writing image sha256:aaa done\n#6 writing image sha256:bbb done"
      = .ok "aaa" ∧
    extractImageHash "#6 writing image sha256:bbb done" = .ok "bbb" :=
  ⟨rfl, rfl⟩

/-- C4 counterexample: the round trip fails on the empty log (load gives
the one-element log containing the empty string) and on an element
containing a newline (load splits it in two). -/
theorem load_replace_round_trip_cex :
    retrieve_logged_images (some (try_update_log [])) = [""] ∧
    retrieve_logged_images (some (try_update_log ["a\nb"])) = ["a", "b"] :=
  ⟨rfl, rfl⟩

/-- C9: splitting an existing file's contents on newlines never yields
the empty sequence; in particular a zero-length file loads as the
one-element sequence containing the empty string. -/
theorem load_never_empty :
    (∀ contents : String, 0 < (retrieve_logged_images (some contents)).length) ∧
    retrieve_logged_images (some "") = [""] := by
  constructor
  · intro contents
    show 0 < (splitLines contents).length
    unfold splitLines
    rw [List.length_map]
    have hne : contents.toList.splitOn '\n' ≠ [] :=
      List.splitOnP_ne_nil _ contents.toList
    exact List.length_pos.mpr hne
  · rfl

/-- C6: appending is idempotent; it returns the log unchanged when the
hash already occurs in it, and appends the hash at the end otherwise. -/
theorem append_if_absent_idempotent_and_noop (L : List String) (h : String) :
    append_if_absent (append_if_absent L h) h = append_if_absent L h ∧
    (h ∈ L → append_if_absent L h = L) ∧
    (h ∉ L → append_if_absent L h = L ++ [h]) := by
  by_cases hm : h ∈ L
  · refine ⟨?_, fun _ => ?_, fun hn => absurd hm hn⟩ <;>
      simp [append_if_absent, hm]
  · have h1 : append_if_absent L h = L ++ [h] := by
      simp [append_if_absent, hm]
    refine ⟨?_, fun hmem => absurd hmem hm, fun _ => h1⟩
    rw [h1]
    simp [append_if_absent]

/-- C8: the ownership filter is total and returns true exactly when the
tool label at `[0].Config.Labels.tool` is the string "spade-docker";
absent keys, non-string values and other strings all give false. -/
theorem is_owned_characterisation :
    (∀ j : Json, is_owned j = true ↔
      (((j.index 0).key "Config").key "Labels").key "tool" = Json.str "spade-docker") ∧
    is_owned exOwned = true ∧
    is_owned exEmptyLabels = false ∧
    is_owned exNoConfig = false := by
  refine ⟨?_, rfl, rfl, rfl⟩
  intro j
  unfold is_owned
  cases h : (((j.index 0).key "Config").key "Labels").key "tool" <;>
    simp [Json.as_str]

/-- C4 (amended): for every non-empty log whose elements are non-empty
and contain no newline character, persisting with replace and loading
back returns exactly the original log. -/
theorem load_replace_round_trip (L : List String) (hne : L ≠ [])
    (_hnonempty : ∀ x ∈ L, x ≠ "") (hnl : ∀ x ∈ L, '\n' ∉ x.toList) :
    retrieve_logged_images (some (try_update_log L)) = L := by
  show splitLines (joinLines L) = L
  unfold splitLines joinLines
  have hmk : (String.mk (List.intercalate ['\n'] (L.map String.toList))).toList
      = List.intercalate ['\n'] (L.map String.toList) := rfl
  rw [hmk]
  rw [List.splitOn_intercalate (L.map String.toList) '\n' ?hx ?hls]
  case hx =>
    intro l hl
    rw [List.mem_map] at hl
    obtain ⟨x, hx1, rfl⟩ := hl
    exact hnl x hx1
  case hls =>
    intro hmap
    exact hne (List.map_eq_nil_iff.mp hmap)
  rw [List.map_map]
  have hcomp : ((fun cs => String.mk cs) ∘ String.toList) = id := by
    funext s
    rfl
  rw [hcomp, List.map_id]

/-- Witness for the amended round trip at the concrete log ["a", "b"]. -/
theorem load_replace_round_trip_witness :
    retrieve_logged_images (some (try_update_log ["a", "b"])) = ["a", "b"] :=
  load_replace_round_trip ["a", "b"] (by decide)
    (by intro x hx; fin_cases hx <;> decide)
    (by intro x hx; fin_cases hx <;> decide)

/-- Witness for C6 at the concrete log ["x"] and hash "y". -/
theorem append_if_absent_idempotent_and_noop_witness :
    append_if_absent (append_if_absent ["x"] "y") "y" = append_if_absent ["x"] "y" ∧
    append_if_absent ["x"] "y" = ["x"] ++ ["y"] :=
  ⟨(append_if_absent_idempotent_and_noop ["x"] "y").1,
   (append_if_absent_idempotent_and_noop ["x"] "y").2.2 (by decide)⟩

/-- When every element of the first list satisfies `p`, `takeWhile p`
passes over it and continues in the second list. -/
theorem takeWhile_append_all {α : Type} (p : α → Bool) (a b : List α)
    (ha : ∀ c ∈ a, p c = true) :
    (a ++ b).takeWhile p = a ++ b.takeWhile p := by
  induction a with
  | nil => rfl
  | cons c a ih =>
    have hc : p c = true := ha c (List.mem_cons_self c a)
    simp only [List.cons_append, List.takeWhile_cons, hc, if_true]
    rw [ih (fun x hx => ha x (List.mem_cons_of_mem c hx))]

/-- The first block of `splitOnP p` is the longest negative-of-`p`
initial segment. -/
theorem splitOnP_head_takeWhile {α : Type} (p : α → Bool) (y : List α) :
    ∃ rest, y.splitOnP p = y.takeWhile (fun c => !p c) :: rest := by
  induction y with
  | nil => exact ⟨[], rfl⟩
  | cons c y ih =>
    by_cases hc : p c
    · refine ⟨y.splitOnP p, ?_⟩
      simp [List.splitOnP_cons, hc, List.takeWhile_cons]
    · obtain ⟨rest, hrest⟩ := ih
      refine ⟨rest, ?_⟩
      simp [List.splitOnP_cons, hc, List.takeWhile_cons, hrest]

/-- After any occurrence of a separator, the block beginning right after
it appears in the tail of `splitOnP`. -/
theorem takeWhile_mem_tail_splitOnP {α : Type} (p : α → Bool) (sep : α)
    (hsep : p sep = true) (x y : List α) :
    y.takeWhile (fun c => !p c) ∈ ((x ++ sep :: y).splitOnP p).tail := by
  induction x with
  | nil =>
    obtain ⟨rest, hrest⟩ := splitOnP_head_takeWhile p y
    simp [List.splitOnP_cons, hsep, hrest]
  | cons c x ih =>
    by_cases hc : p c
    · simp only [List.cons_append, List.splitOnP_cons, hc, if_true, List.tail_cons]
      exact List.mem_of_mem_tail ih
    · have hne := List.splitOnP_ne_nil p (x ++ sep :: y)
      simp only [List.cons_append, List.splitOnP_cons, hc, if_false]
      cases hsplit : (x ++ sep :: y).splitOnP p with
      | nil => exact absurd hsplit hne
      | cons r rs =>
        rw [hsplit] at ih
        simpa using ih

/-- When the second list is non-empty and contains no element satisfying
`p`, `dropWhile p` on an append ends with the second list intact. -/
theorem dropWhile_append_none {α : Type} (p : α → Bool) (v u : List α)
    (hu : ∀ c ∈ u, p c = false) (hune : u ≠ []) :
    ∃ w, (v ++ u).dropWhile p = w ++ u := by
  induction v with
  | nil =>
    refine ⟨[], ?_⟩
    cases u with
    | nil => exact absurd rfl hune
    | cons c u =>
      simp [List.dropWhile_cons, hu c (List.mem_cons_self c u)]
  | cons c v ih =>
    by_cases hc : p c
    · obtain ⟨w, hw⟩ := ih
      exact ⟨w, by simp [List.dropWhile_cons, hc, hw]⟩
    · exact ⟨c :: v, by simp [List.dropWhile_cons, hc]⟩

/-- Trimming preserves a non-whitespace, non-empty leading block. -/
theorem trimChars_append_keeps_head (a b : List Char) (hane : a ≠ [])
    (ha : ∀ c ∈ a, c.isWhitespace = false) :
    ∃ t, trimChars (a ++ b) = a ++ t := by
  unfold trimChars
  have h1 : (a ++ b).dropWhile Char.isWhitespace = a ++ b := by
    cases a with
    | nil => exact absurd rfl hane
    | cons c a =>
      simp [List.dropWhile_cons, ha c (List.mem_cons_self c a)]
  rw [h1, List.reverse_append]
  obtain ⟨w, hw⟩ := dropWhile_append_none Char.isWhitespace b.reverse a.reverse
    (fun c hc => ha c (List.mem_reverse.mp hc))
    (fun hrev => hane (by simpa using congrArg List.reverse hrev))
  rw [hw, List.reverse_append, List.reverse_reverse]
  exact ⟨w.reverse, rfl⟩

/-- A member on which the function succeeds makes `findSome?` succeed. -/
theorem findSome?_isSome_of_mem {α β : Type} (f : α → Option β) (l : List α)
    (a : α) (hmem : a ∈ l) (hf : (f a).isSome = true) :
    (l.findSome? f).isSome = true := by
  induction l with
  | nil => exact absurd hmem (List.not_mem_nil a)
  | cons c l ih =>
    rw [List.findSome?_cons]
    cases hc : f c with
    | some b => rfl
    | none =>
      rcases List.mem_cons.mp hmem with rfl | hmem2
      · rw [hc] at hf
        exact absurd hf (by simp)
      · exact ih hmem2

/-- Every line containing the marker substring yields a token with the
sha256 prefix: the marker itself ends in a space-delimited such token. -/
theorem marker_line_has_token (line : String) (hc : containsMarker line = true) :
    (extractHashFromLine line).isSome = true := by
  unfold containsMarker isInfixOfChars at hc
  rw [List.any_eq_true] at hc
  obtain ⟨t, ht, hpref⟩ := hc
  rw [List.mem_tails] at ht
  have hp : marker.toList <+: t := List.isPrefixOf_iff_prefix.mp hpref
  obtain ⟨r, rfl⟩ := hp
  obtain ⟨l, hl⟩ := ht
  have hdecomp : marker.toList = "writing image".toList ++ ' ' :: "sha256:".toList := rfl
  have hline : line.toList =
      (l ++ "writing image".toList) ++ ' ' :: ("sha256:".toList ++ r) := by
    rw [← hl, hdecomp]
    simp
  have hmem := takeWhile_mem_tail_splitOnP (fun c => c == ' ') ' ' rfl
    (l ++ "writing image".toList) ("sha256:".toList ++ r)
  have hmem2 := List.mem_of_mem_tail hmem
  rw [← hline] at hmem2
  have htw : ("sha256:".toList ++ r).takeWhile (fun c => !(c == ' '))
      = "sha256:".toList ++ r.takeWhile (fun c => !(c == ' ')) :=
    takeWhile_append_all _ _ _ (by decide)
  rw [htw] at hmem2
  obtain ⟨t', ht'⟩ := trimChars_append_keeps_head "sha256:".toList
    (r.takeWhile (fun c => !(c == ' '))) (by decide) (by decide)
  have hsplit : line.toList.splitOn ' ' = line.toList.splitOnP (fun c => c == ' ') := rfl
  have h2 : (((line.toList.splitOn ' ').map trimChars).findSome?
      (fun segment => stripPrefixChars "sha256:".toList segment)).isSome = true := by
    rw [hsplit]
    refine findSome?_isSome_of_mem _ _
      (trimChars ("sha256:".toList ++ r.takeWhile (fun c => !(c == ' ')))) ?_ ?_
    · exact List.mem_map_of_mem trimChars hmem2
    · rw [ht']
      unfold stripPrefixChars
      rw [if_pos (List.isPrefixOf_iff_prefix.mpr (List.prefix_append _ _))]
      rfl
  unfold extractHashFromLine
  obtain ⟨v, hv⟩ := Option.isSome_iff_exists.mp h2
  rw [hv]
  rfl

/-- C7 counterexample: on output with no marker line, the code aborts
the process with the panic message of `.expect` — not a recoverable
ProtocolError result, and not the message "no image produced". -/
theorem extraction_failure_is_panic_cex :
    extractImageHash "step one\nstep two" =
      .panicked "`docker build` did not write image" :=
  rfl

/-- C7 (amended): on output with no marker line, extraction aborts via
panic with the message of src/main.rs:188; and every line that does
contain the marker necessarily yields a sha256-prefixed token (the
marker substring itself supplies one), so the malformed-reference
failure of src/main.rs:193 cannot occur. -/
theorem extraction_no_marker_panics :
    (∀ out, (rustLines out).find? containsMarker = none →
      extractImageHash out = .panicked "`docker build` did not write image") ∧
    (∀ line, containsMarker line = true → (extractHashFromLine line).isSome = true) := by
  constructor
  · intro out h
    unfold extractImageHash
    rw [h]
  · exact marker_line_has_token

/-- Witness for C7 at concrete inputs: the empty output has no marker
line and panics; a concrete marker line yields a token. -/
theorem extraction_no_marker_panics_witness :
    extractImageHash "" = .panicked "`docker build` did not write image" ∧
    (extractHashFromLine "#8 writing image sha256:abc done").isSome = true :=
  ⟨extraction_no_marker_panics.1 "" rfl,
   extraction_no_marker_panics.2 "#8 writing image sha256:abc done" (by decide)⟩

/-- A clean pass of the loop — every inspected identifier either not
owned, or owned with the removal reporting failure or the remover
erroring — produces no store write. -/
theorem pruneAux_nil_of_clean (inspect : String → Except Unit Json)
    (remove : String → Except Unit Bool) (l removed : List String)
    (hcl : ∀ h ∈ l, ∀ info, inspect h = .ok info →
      is_owned info = false ∨ remove h = .ok false ∨ remove h = .error ()) :
    pruneAux inspect remove l removed = [] := by
  induction l generalizing removed with
  | nil => rfl
  | cons x xs ih =>
    have hx := hcl x (List.mem_cons_self x xs)
    have hxs : ∀ h ∈ xs, ∀ info, inspect h = .ok info →
        is_owned info = false ∨ remove h = .ok false ∨ remove h = .error () :=
      fun h hm => hcl h (List.mem_cons_of_mem x hm)
    unfold pruneAux
    cases hins : inspect x with
    | error e => rfl
    | ok info =>
      rcases hx info hins with hno | hrm | herr
      · simp [hno, ih removed hxs]
      · by_cases how : is_owned info <;> simp [how, hrm, ih removed hxs]
      · by_cases how : is_owned info <;> simp [how, herr, ih removed hxs]

/-- C10: a run in which no identifier is both owned and successfully
removed never writes the store: the trace of persisted logs is empty, so
the persisted file keeps its pre-run content. -/
theorem clean_run_writes_nothing (inspect : String → Except Unit Json)
    (remove : String → Except Unit Bool) (log : List String)
    (hcl : ∀ h ∈ log, ∀ info, inspect h = .ok info →
      is_owned info = false ∨ remove h = .ok false ∨ remove h = .error ()) :
    pruneAux inspect remove log [] = [] :=
  pruneAux_nil_of_clean inspect remove log [] hcl

/-- Witness for C10: a run over ["x", "y"] where nothing is owned
performs no write. -/
theorem clean_run_writes_nothing_witness :
    pruneAux inspectNoneOwned removeAllOk ["x", "y"] [] = [] :=
  clean_run_writes_nothing inspectNoneOwned removeAllOk ["x", "y"]
    (by
      intro h hm info hinfo
      injection hinfo with h1
      rw [← h1]
      exact Or.inl rfl)

/-- When every identifier of a leading block is processed without a
successful removal, a subsequent successful removal persists the tail
right after the removed identifier. -/
theorem pruneAux_head_after_skips (inspect : String → Except Unit Json)
    (remove : String → Except Unit Bool) (pre : List String) (hash : String)
    (rest removed : List String) (info : Json)
    (hpre : ∀ p ∈ pre, ∃ pinfo, inspect p = .ok pinfo ∧
      (is_owned pinfo = false ∨ remove p = .ok false))
    (hins : inspect hash = .ok info) (hown : is_owned info = true)
    (hrm : remove hash = .ok true) :
    (pruneAux inspect remove (pre ++ hash :: rest) removed).head? =
      some (rest, hash :: removed) := by
  induction pre generalizing removed with
  | nil =>
    simp only [List.nil_append]
    unfold pruneAux
    rw [hins]
    simp [hown, hrm]
  | cons p pre ih =>
    obtain ⟨pinfo, hp, hcase⟩ := hpre p (List.mem_cons_self p pre)
    have hpre' : ∀ q ∈ pre, ∃ pinfo, inspect q = .ok pinfo ∧
        (is_owned pinfo = false ∨ remove q = .ok false) :=
      fun q hq => hpre q (List.mem_cons_of_mem p hq)
    simp only [List.cons_append]
    unfold pruneAux
    rw [hp]
    rcases hcase with hno | hrmf
    · simp only [hno, if_false]
      exact ih removed hpre'
    · by_cases how : is_owned pinfo
      · simp only [how, if_true]
        rw [hrmf]
        exact ih removed hpre'
      · simp only [how, if_false]
        exact ih removed hpre'

/-- C2: when the identifier at position i is the first with a successful
removal (everything before it was inspected and skipped — not owned, or
removal unsuccessful), the store written at that point is exactly the
suffix of the log starting at position i+1; identifiers before position
i, the skipped ones included, are dropped. -/
theorem prune_success_persists_suffix (inspect : String → Except Unit Json)
    (remove : String → Except Unit Bool) (pre : List String) (hash : String)
    (rest removed : List String) (info : Json)
    (hpre : ∀ p ∈ pre, ∃ pinfo, inspect p = .ok pinfo ∧
      (is_owned pinfo = false ∨ remove p = .ok false))
    (hins : inspect hash = .ok info) (hown : is_owned info = true)
    (hrm : remove hash = .ok true) :
    (pruneAux inspect remove (pre ++ hash :: rest) removed).head? =
      some ((pre ++ hash :: rest).drop (pre.length + 1), hash :: removed) := by
  have hdrop : (pre ++ hash :: rest).drop (pre.length + 1) = rest := by
    have h1 : pre ++ hash :: rest = (pre ++ [hash]) ++ rest := by simp
    have h2 : pre.length + 1 = (pre ++ [hash]).length := by simp
    rw [h1, h2, List.drop_left]
  rw [hdrop]
  exact pruneAux_head_after_skips inspect remove pre hash rest removed info hpre hins hown hrm

/-- Witness for C2: the spec's scenario with log ["a", "b", "c"], "a" not
owned, "b" and "c" owned, removal succeeding for "b": the write after
"b" persists exactly ["c"]. -/
theorem prune_success_persists_suffix_witness :
    (pruneAux inspectScenario removeScenario (["a"] ++ "b" :: ["c"]) []).head? =
      some ((["a"] ++ "b" :: ["c"]).drop (["a"].length + 1), ["b"]) :=
  prune_success_persists_suffix inspectScenario removeScenario ["a"] "b" ["c"] [] exOwned
    (by
      intro p hp
      have hpa : p = "a" := by simpa using hp
      subst hpa
      exact ⟨exNoConfig, rfl, Or.inl rfl⟩)
    rfl rfl rfl

/-- Along any prune run over a duplicate-free log, no identifier whose
removal has been confirmed appears in any log persisted afterwards. -/
theorem pruneAux_removed_disjoint (inspect : String → Except Unit Json)
    (remove : String → Except Unit Bool) :
    ∀ (l removed : List String), l.Nodup → (∀ r ∈ removed, r ∉ l) →
      ∀ e ∈ pruneAux inspect remove l removed, ∀ h ∈ e.2, h ∉ e.1 := by
  intro l
  induction l with
  | nil =>
    intro removed _ _ e he
    simp [pruneAux] at he
  | cons x xs ih =>
    intro removed hnd hrem e he
    obtain ⟨hx_not_mem, hnd'⟩ := List.nodup_cons.mp hnd
    have hrem' : ∀ r ∈ removed, r ∉ xs :=
      fun r hr hmem => hrem r hr (List.mem_cons_of_mem x hmem)
    unfold pruneAux at he
    cases hins : inspect x with
    | error e2 =>
      rw [hins] at he
      simp at he
    | ok info =>
      rw [hins] at he
      by_cases how : is_owned info
      · simp only [how, if_true] at he
        cases hrm : remove x with
        | error e3 =>
          rw [hrm] at he
          simp at he
        | ok b =>
          rw [hrm] at he
          cases b with
          | true =>
            rcases List.mem_cons.mp he with rfl | he2
            · intro h hh
              rcases List.mem_cons.mp hh with rfl | hh2
              · exact hx_not_mem
              · exact hrem' h hh2
            · have hrem2 : ∀ r ∈ x :: removed, r ∉ xs := by
                intro r hr
                rcases List.mem_cons.mp hr with rfl | hr2
                · exact hx_not_mem
                · exact hrem' r hr2
              exact ih (x :: removed) hnd' hrem2 e he2
          | false => exact ih removed hnd' hrem' e he
      · simp only [how, if_false] at he
        exact ih removed hnd' hrem' e he

/-- C3 (amended): over a log with no duplicate identifiers, after every
successful removal the store persisted at that point — and at every
later point of the run — contains no identifier whose removal has been
confirmed. -/
theorem prune_never_persists_removed (inspect : String → Except Unit Json)
    (remove : String → Except Unit Bool) (log : List String) (hnd : log.Nodup) :
    ∀ e ∈ pruneAux inspect remove log [], ∀ h ∈ e.2, h ∉ e.1 :=
  pruneAux_removed_disjoint inspect remove log [] hnd (by simp)

/-- Witness for C3 over the duplicate-free log ["a", "b", "c"] with the
spec's scenario collaborators: the one event of that run persists ["c"]
with "b" removed, and the removed "b" is not in the persisted ["c"]. -/
theorem prune_never_persists_removed_witness :
    decide ("b" ∈ (["c"] : List String)) = false := by
  have h := prune_never_persists_removed inspectScenario removeScenario ["a", "b", "c"]
    (by decide) (["c"], ["b"]) (by decide) "b" (by decide)
  exact decide_eq_false h

/-- C3 counterexample: on the log ["b", "b"] with "b" owned and its
removal succeeding, the first persisted store is ["b"] while "b" has
already been confirmed removed — the persisted store contains a removed
identifier. -/
theorem prune_persists_removed_duplicate_cex :
    pruneAux inspectAllOwned removeAllOk ["b", "b"] [] =
      [(["b"], ["b"]), ([], ["b", "b"])] ∧
    "b" ∈ (["b"] : List String) :=
  ⟨rfl, by decide⟩

end SpadeDocker
